import Mathlib

/-!
Verification of the LME copper scraper's text-normalization and record
collection logic (`lme_scraper.py`, class `LMECopperScraper`).

The Python code is shallowly embedded:

* strings are `List Char` (wrapped as `String` at the API boundary);
* `str.strip`, `str.replace`, `str.split`, the regex `re.sub(r'[^\d,.-]','',s)`
  and `in` tests are modelled character by character;
* Python `float(...)` applied to the munged tokens (which contain only ASCII
  digits, `.`, `,`, `-`) is modelled as an exact decimal rational together
  with the overflow-to-infinity behaviour of IEEE doubles: a parsed magnitude
  of at least `2^1024` yields an infinite float.  Rounding inside the finite
  range is not modelled; no property below depends on it, only on which
  token shape parses and on values far from the representability boundary;
* `int(float(s))` truncates toward zero and raises `OverflowError` on an
  infinite float, which `except (ValueError, AttributeError)` does not catch;
* exceptions are an explicit `Except` channel; the value `none` is Python's
  `None`;
* the HTTP fetch / BeautifulSoup glue (declared out of scope by the design
  document) is abstracted: a page is either a fetch/parse failure or the
  list of its data rows, each row the list of its cell texts.
-/

/-- Exceptions relevant to the normalizers: `float()` raises `ValueError`,
`int()` on an infinite float raises `OverflowError`; the handlers in
`clean_price`/`clean_stock` catch `(ValueError, AttributeError)`. -/
inductive PyExc where
  | valueError
  | attributeError
  | overflowError
deriving DecidableEq, Repr

/-- A Python float as produced by `float(token)`: an exact decimal rational,
or an infinity when the decimal magnitude reaches `2^1024`. -/
inductive PyFloat where
  | finite (q : ℚ)
  | inf
  | neginf
deriving Repr

/-- Equality of `PyFloat`s decided on the numerator/denominator
representation, so that it evaluates by kernel reduction. -/
instance : DecidableEq PyFloat := fun x y =>
  match x, y with
  | .finite a, .finite b =>
    if h : a.num = b.num ∧ a.den = b.den then
      isTrue (congrArg PyFloat.finite (Rat.ext h.1 h.2))
    else
      isFalse (fun he => h (by rw [PyFloat.finite.inj he]; exact ⟨rfl, rfl⟩))
  | .finite _, .inf => isFalse (fun he => PyFloat.noConfusion he)
  | .finite _, .neginf => isFalse (fun he => PyFloat.noConfusion he)
  | .inf, .finite _ => isFalse (fun he => PyFloat.noConfusion he)
  | .inf, .inf => isTrue rfl
  | .inf, .neginf => isFalse (fun he => PyFloat.noConfusion he)
  | .neginf, .finite _ => isFalse (fun he => PyFloat.noConfusion he)
  | .neginf, .inf => isFalse (fun he => PyFloat.noConfusion he)
  | .neginf, .neginf => isTrue rfl

instance {ε α : Type} [DecidableEq ε] [DecidableEq α] :
    DecidableEq (Except ε α) := fun x y =>
  match x, y with
  | .ok a, .ok b =>
    match decEq a b with
    | isTrue h => isTrue (h ▸ rfl)
    | isFalse h => isFalse (fun he => h (Except.ok.inj he))
  | .ok _, .error _ => isFalse (fun he => Except.noConfusion he)
  | .error _, .ok _ => isFalse (fun he => Except.noConfusion he)
  | .error e, .error f =>
    match decEq e f with
    | isTrue h => isTrue (h ▸ rfl)
    | isFalse h => isFalse (fun he => h (Except.error.inj he))

/-- Python `str.strip()` on the ASCII whitespace relevant here. -/
def pyStrip (cs : List Char) : List Char :=
  ((cs.dropWhile Char.isWhitespace).reverse.dropWhile Char.isWhitespace).reverse

/-- One step of Python `str.replace`: scan left to right, replacing each
non-overlapping occurrence of `pat` by `rep`.  Fuel-driven so that it
reduces definitionally; `pyReplace` supplies fuel `cs.length`, enough since
every step consumes at least one character of a non-empty pattern. -/
def pyReplaceFuel (pat rep : List Char) : Nat → List Char → List Char
  | 0, cs => cs
  | fuel + 1, cs =>
    match cs with
    | [] => []
    | c :: rest =>
      if !pat.isEmpty && pat.isPrefixOf (c :: rest) then
        rep ++ pyReplaceFuel pat rep fuel ((c :: rest).drop pat.length)
      else
        c :: pyReplaceFuel pat rep fuel rest

/-- Python `cs.replace(pat, rep)` for a non-empty pattern. -/
def pyReplace (cs pat rep : List Char) : List Char :=
  pyReplaceFuel pat rep cs.length cs

/-- Model of `re.sub(r'[^\d,.-]', '', s)`: keep only digits, comma, dot, minus. -/
def reSubKeepNumeric (cs : List Char) : List Char :=
  cs.filter (fun c => c.isDigit || c = ',' || c = '.' || c = '-')

/-- Python `p in s` on characters. -/
def pyContains (cs : List Char) (p : Char) : Bool :=
  cs.any (fun c => c = p)

/-- Python `s.split(p)` for a one-character separator. -/
def splitOnChar (p : Char) : List Char → List (List Char)
  | [] => [[]]
  | c :: rest =>
    match splitOnChar p rest with
    | g :: gs => if c = p then [] :: g :: gs else (c :: g) :: gs
    | [] => if c = p then [[], []] else [[c]]

/-- Decimal value of a digit string, most significant first. -/
def digitsToNat (cs : List Char) : Nat :=
  cs.foldl (fun acc c => acc * 10 + (c.toNat - 48)) 0

/-- All characters are ASCII digits. -/
def allDigits (cs : List Char) : Bool :=
  cs.all Char.isDigit

/-- Peel an optional leading sign, as Python `float()` does. -/
def pySign : List Char → ℤ × List Char
  | [] => (1, [])
  | c :: rest =>
    if c = '-' then (-1, rest)
    else if c = '+' then (1, rest)
    else (1, c :: rest)

/-- Python `float(s)` restricted to the alphabet the scraper can produce
(digits, `.`, `,`, `-`): `none` is a `ValueError`, otherwise the exact
decimal rational. -/
def pyFloatParseCore (cs : List Char) : Option ℚ :=
  let (sgn, body) := pySign cs
  match splitOnChar '.' body with
  | [ip] =>
    if allDigits ip && !ip.isEmpty then
      some (mkRat (sgn * (digitsToNat ip : ℤ)) 1)
    else none
  | [ip, fp] =>
    if allDigits ip && allDigits fp && (!ip.isEmpty || !fp.isEmpty) then
      some (mkRat (sgn * ((digitsToNat ip * 10 ^ fp.length + digitsToNat fp : ℕ) : ℤ))
        (10 ^ fp.length))
    else none
  | _ => none

/-- The double overflow threshold `2^1024`, as an integer so that the
comparison below evaluates by kernel reduction. -/
def twoPow1024 : ℤ := ((2 ^ 1024 : ℕ) : ℤ)

/-- Classify the parsed decimal as a double: magnitudes reaching `2^1024`
overflow to an infinity.  The comparison `2^1024 ≤ q` is computed on the
numerator/denominator representation. -/
def floatClassify (q : ℚ) : PyFloat :=
  if twoPow1024 * (q.den : ℤ) ≤ q.num then .inf
  else if q.num ≤ -(twoPow1024 * (q.den : ℤ)) then .neginf
  else .finite q

/-- Python `float(s)` with its `ValueError` made explicit. -/
def pyFloatOf (cs : List Char) : Except PyExc PyFloat :=
  match pyFloatParseCore cs with
  | some q => .ok (floatClassify q)
  | none => .error .valueError

/-- Truncation toward zero, as Python `int()` on a finite float. -/
def ratTrunc (q : ℚ) : ℤ :=
  if 0 ≤ q.num then (q.num.toNat / q.den : ℕ) else -((-q.num).toNat / q.den : ℕ)

/-- Python `int(f)` on a float: truncates a finite value, raises
`OverflowError` on an infinity. -/
def pyIntOfFloat : PyFloat → Except PyExc ℤ
  | .finite q => .ok (ratTrunc q)
  | .inf => .error .overflowError
  | .neginf => .error .overflowError

/-- Python `int(float(s))`. -/
def pyIntFloat (cs : List Char) : Except PyExc ℤ := do
  pyIntOfFloat (← pyFloatOf cs)

/-- Python `str(n)` for a natural number (fuel-driven digit extraction). -/
def natToCharsAux : Nat → Nat → List Char
  | 0, _ => []
  | fuel + 1, n =>
    if n < 10 then [Nat.digitChar n]
    else natToCharsAux fuel (n / 10) ++ [Nat.digitChar (n % 10)]

/-- Python `str(n)` for a natural number. -/
def natToChars (n : Nat) : List Char := natToCharsAux (n + 1) n

/-- Python `str(i)` for an integer. -/
def intToChars (i : ℤ) : List Char :=
  if i < 0 then '-' :: natToChars i.natAbs else natToChars i.toNat

/-- Body of `LMECopperScraper.clean_price` (the code inside the `try`),
with `float()`'s `ValueError` as an explicit error. -/
def clean_price_body (s : String) : Except PyExc (Option PyFloat) :=
  let cs := s.data
  if cs.isEmpty || pyStrip cs = ['-'] then .ok none
  else
    let t := reSubKeepNumeric (pyStrip cs)
    let t :=
      if pyContains t ',' && pyContains t '.' then
        pyReplace (pyReplace t ['.'] []) [','] ['.']
      else if pyContains t ',' then
        pyReplace t [','] ['.']
      else t
    do return some (← pyFloatOf t)

/-- Model of `LMECopperScraper.clean_price`: the `except (ValueError, AttributeError)`
handler logs and returns `None`; any other exception would escape. -/
def clean_price (s : String) : Except PyExc (Option PyFloat) :=
  match clean_price_body s with
  | .error .valueError => .ok none
  | .error .attributeError => .ok none
  | r => r

/-- Body of `LMECopperScraper.clean_stock` (the code inside the `try`). -/
def clean_stock_body (s : String) : Except PyExc (Option ℤ) :=
  let cs := s.data
  if cs.isEmpty || pyStrip cs = ['-'] then .ok none
  else
    let t := reSubKeepNumeric (pyStrip cs)
    if pyContains t '.' && pyContains t ',' then do
      return some (← pyIntFloat (pyReplace (pyReplace t ['.'] []) [','] []))
    else if pyContains t '.' then
      let parts := splitOnChar '.' t
      if parts.length = 2 && (parts.getD 1 []).length = 3 then do
        return some (← pyIntFloat (pyReplace t ['.'] []))
      else do
        let i ← pyIntFloat t
        return some (← pyIntFloat (intToChars i))
    else if pyContains t ',' then do
      return some (← pyIntFloat (pyReplace t [','] []))
    else do
      return some (← pyIntFloat t)

/-- Model of `LMECopperScraper.clean_stock`: catches `(ValueError, AttributeError)`
and returns `None`; an `OverflowError` from `int()` escapes. -/
def clean_stock (s : String) : Except PyExc (Option ℤ) :=
  match clean_stock_body s with
  | .error .valueError => .ok none
  | .error .attributeError => .ok none
  | r => r

/-- The `german_months` replacement table of `parse_date`, in source (dict
insertion) order.  The third key reproduces the mojibake in the source file:
the bytes there decode to the five characters `M`, `U+00C3`, `U+00A4`, `r`,
`z`, not to a proper `ä`. -/
def german_months : List (List Char × List Char) :=
  [("Januar".data, "January".data), ("Jan".data, "January".data),
   ("Februar".data, "February".data), ("Feb".data, "February".data),
   ("MÃ¤rz".data, "March".data), ("Mar".data, "March".data),
   ("April".data, "April".data), ("Apr".data, "April".data),
   ("Mai".data, "May".data), ("May".data, "May".data),
   ("Juni".data, "June".data), ("Jun".data, "June".data),
   ("Juli".data, "July".data), ("Jul".data, "July".data),
   ("August".data, "August".data), ("Aug".data, "August".data),
   ("September".data, "September".data), ("Sep".data, "September".data),
   ("Oktober".data, "October".data), ("Oct".data, "October".data),
   ("November".data, "November".data), ("Nov".data, "November".data),
   ("Dezember".data, "December".data), ("Dec".data, "December".data)]

/-- The sequential `str.replace` loop of `parse_date`. -/
def applyMonthReplacements (cs : List Char) : List Char :=
  german_months.foldl (fun acc ge => pyReplace acc ge.1 ge.2) cs

/-- Full month names recognized by `strptime`'s `%B` in the C locale. -/
def monthNamesFull : List (List Char × Nat) :=
  [("January".data, 1), ("February".data, 2), ("March".data, 3),
   ("April".data, 4), ("May".data, 5), ("June".data, 6),
   ("July".data, 7), ("August".data, 8), ("September".data, 9),
   ("October".data, 10), ("November".data, 11), ("December".data, 12)]

/-- Abbreviated month names recognized by `strptime`'s `%b`. -/
def monthNamesAbbr : List (List Char × Nat) :=
  [("Jan".data, 1), ("Feb".data, 2), ("Mar".data, 3), ("Apr".data, 4),
   ("May".data, 5), ("Jun".data, 6), ("Jul".data, 7), ("Aug".data, 8),
   ("Sep".data, 9), ("Oct".data, 10), ("Nov".data, 11), ("Dec".data, 12)]

/-- Case-insensitive prefix test, as `strptime`'s month regex (compiled with
`IGNORECASE`) uses. -/
def ciStartsWith (pat cs : List Char) : Bool :=
  (pat.map Char.toLower).isPrefixOf (cs.map Char.toLower)

/-- Match one month name from the list at the front of the input.  No
listed name is a prefix of another, so first-match is the regex semantics. -/
def matchMonth : List (List Char × Nat) → List Char → Option (Nat × List Char)
  | [], _ => none
  | (name, num) :: rest, cs =>
    if ciStartsWith name cs then some (num, cs.drop name.length)
    else matchMonth rest cs

/-- The `strptime` pattern for `%d`, namely `(3[01]|[12]\d|0[1-9]|[1-9])`: is `c1 c2` a
two-digit day? -/
def day2ok (c1 c2 : Char) : Bool :=
  (c1 = '3' && (c2 = '0' || c2 = '1')) ||
  ((c1 = '1' || c1 = '2') && c2.isDigit) ||
  (c1 = '0' && c2.isDigit && c2 ≠ '0')

/-- The pattern `%d` as a one-digit day. -/
def day1ok (c : Char) : Bool := c.isDigit && c ≠ '0'

/-- The pattern `%d` followed by the literal `.` of the format `"%d. %B %Y"`, with the
regex backtracking determinized: a two-digit day must be followed by `.`,
otherwise a one-digit day must be. -/
def parseDayDot : List Char → Option (Nat × List Char)
  | c1 :: c2 :: c3 :: rest =>
    if day2ok c1 c2 && c3 = '.' then
      some ((c1.toNat - 48) * 10 + (c2.toNat - 48), rest)
    else if day1ok c1 && c2 = '.' then some (c1.toNat - 48, c3 :: rest)
    else none
  | [c1, c2] => if day1ok c1 && c2 = '.' then some (c1.toNat - 48, []) else none
  | _ => none

/-- A whitespace run in the format becomes `\s+`: consume one or more
whitespace characters. -/
def eatWs : List Char → Option (List Char)
  | c :: rest =>
    if c.isWhitespace then some (rest.dropWhile Char.isWhitespace) else none
  | [] => none

/-- The pattern `%Y` (exactly four digits) which must also end the input, as `strptime`
rejects unconverted trailing data. -/
def parseYearEnd : List Char → Option Nat
  | [a, b, c, d] =>
    if allDigits [a, b, c, d] then some (digitsToNat [a, b, c, d]) else none
  | _ => none

/-- Gregorian leap year. -/
def isLeap (y : Nat) : Bool :=
  (y % 4 = 0 && y % 100 ≠ 0) || y % 400 = 0

/-- Days in a month, as `datetime` validates. -/
def daysInMonth (y m : Nat) : Nat :=
  if m = 2 then (if isLeap y then 29 else 28)
  else if m = 4 || m = 6 || m = 9 || m = 11 then 30
  else 31

/-- Model of `datetime.strptime(s, "%d. %B %Y")` (or `%b` for the abbreviated list):
day, literal dot, whitespace, month name, whitespace, four-digit year, end of
input; then the `datetime` constructor validates the composed date. -/
def strptimeDMY (names : List (List Char × Nat)) (cs : List Char) :
    Option (Nat × Nat × Nat) := do
  let (day, r1) ← parseDayDot cs
  let r2 ← eatWs r1
  let (mo, r3) ← matchMonth names r2
  let r4 ← eatWs r3
  let y ← parseYearEnd r4
  if 1 ≤ y && day ≤ daysInMonth y mo then some (y, mo, day) else none

/-- Zero-padded decimal rendering used by `strftime("%Y-%m-%d")` (four
digits of year, two of month and day; exact for the years `datetime`
admits, `1 ≤ y ≤ 9999`). -/
def formatIso (y m d : Nat) : List Char :=
  [Nat.digitChar (y / 1000 % 10), Nat.digitChar (y / 100 % 10),
   Nat.digitChar (y / 10 % 10), Nat.digitChar (y % 10), '-',
   Nat.digitChar (m / 10 % 10), Nat.digitChar (m % 10), '-',
   Nat.digitChar (d / 10 % 10), Nat.digitChar (d % 10)]

/-- Model of `LMECopperScraper.parse_date`: strip, run the German→English month
replacements, then try `"%d. %B %Y"` and `"%d. %b %Y"` in order; any
failure (including the caught `ValueError`s) yields `None`.  The
surrounding `except Exception` makes the function total. -/
def parse_date (s : String) : Option String :=
  let t := applyMonthReplacements (pyStrip s.data)
  match strptimeDMY monthNamesFull t with
  | some (y, m, d) => some (String.mk (formatIso y m d))
  | none =>
    match strptimeDMY monthNamesAbbr t with
    | some (y, m, d) => some (String.mk (formatIso y m d))
    | none => none

/-- One scraped record, the dict built in `scrape_data_page`. -/
structure Record where
  date : String
  lme_copper_cash_settlement : Option PyFloat
  lme_copper_3_month : Option PyFloat
  lme_copper_stock : Option ℤ
deriving DecidableEq, Repr

/-- The row loop of `scrape_data_page`: rows with fewer than four cells are
skipped; otherwise the four normalizers run (an uncaught exception aborts
the loop and propagates) and the record is kept only when `parse_date`
produced a date. -/
def processRows : List (List String) → Except PyExc (List Record)
  | [] => .ok []
  | cells :: rest =>
    if cells.length ≥ 4 then do
      let date := parse_date (cells.getD 0 "")
      let cash ← clean_price (cells.getD 1 "")
      let three ← clean_price (cells.getD 2 "")
      let stock ← clean_stock (cells.getD 3 "")
      let tl ← processRows rest
      match date with
      | some d =>
        return ({ date := d, lme_copper_cash_settlement := cash,
                  lme_copper_3_month := three, lme_copper_stock := stock } :: tl)
      | none => return tl
    else processRows rest

/-- A fetched page, abstracting the HTTP/HTML glue: either the exception a
fetch or parse raised, or the extracted data rows (cell texts of the table
rows after the header). -/
abbrev Page := Except String (List (List String))

/-- Model of `LMECopperScraper.scrape_data_page`: the whole body sits in a
`try/except Exception` that logs and returns `[]`, so a failed fetch or an
exception while processing rows contributes no records. -/
def scrape_data_page (page : Page) : List Record :=
  match page with
  | .error _ => []
  | .ok rows =>
    match processRows rows with
    | .ok recs => recs
    | .error _ => []

/-- The duplicate-removal loop of `scrape_all_data` (lines 198-206): keep a
record only when its date was not seen before. -/
def dedupAux : List Record → List String → List Record
  | [], _ => []
  | r :: rest, seen =>
    if r.date ∈ seen then dedupAux rest seen
    else r :: dedupAux rest (r.date :: seen)

/-- Deduplication by date with first-seen-wins semantics. -/
def dedupDates (l : List Record) : List Record := dedupAux l []

/-- Model of `LMECopperScraper.scrape_all_data` on an abstract page sequence: each
page is scraped in order, records are appended in crawl order, and the
accumulated list is deduplicated by date. -/
def scrape_all_data (pages : List Page) : List Record :=
  dedupDates (pages.map scrape_data_page).flatten

/-- Record order used by `save_to_csv`: ascending date.  The `date` fields
are the zero-padded ISO strings `parse_date` emits, on which the
lexicographic string order coincides with the chronological order
`pd.to_datetime` sorts by. -/
def recLe (a b : Record) : Prop := a.date ≤ b.date

instance : DecidableRel recLe := fun a b => String.decidableLE a.date b.date

instance : IsTotal Record recLe := ⟨fun a b => le_total a.date b.date⟩

instance : IsTrans Record recLe := ⟨fun _ _ _ h h' => le_trans h h'⟩

/-- Model of `LMECopperScraper.save_to_csv`: returns without writing when there is
no data, otherwise exports the records sorted ascending by date.
`DataFrame.sort_values` is modelled by a comparison sort; with at most one
record per date (the state after deduplication) every comparison sort
produces this same output. -/
def save_to_csv (l : List Record) : Option (List Record) :=
  if l.isEmpty then none else some (List.insertionSort recLe l)

/-! ### Character and list lemmas -/

/-- A character of a "pure" numeric token: digit, comma or dot. -/
def pureTok (x : Char) : Prop := x.isDigit = true ∨ x = ',' ∨ x = '.'

theorem char_ne_of_isDigit {c d : Char} (h : c.isDigit = true)
    (hd : d.isDigit = false) : c ≠ d := by
  intro he
  rw [he, hd] at h
  exact Bool.false_ne_true h

theorem isWhitespace_eq_false_of_isDigit {c : Char} (h : c.isDigit = true) :
    c.isWhitespace = false := by
  cases hw : c.isWhitespace with
  | false => rfl
  | true =>
    exfalso
    have := hw
    simp only [Char.isWhitespace, Bool.or_eq_true, decide_eq_true_eq] at this
    rcases this with ((rfl | rfl) | rfl) | rfl <;> exact absurd h (by decide)

theorem toNat_le_of_isDigit {c : Char} (h : c.isDigit = true) : c.toNat ≤ 57 := by
  simp only [Char.isDigit, Bool.and_eq_true, decide_eq_true_eq] at h
  exact h.2

theorem dropWhile_eq_self_of_forall {p : Char → Bool} {cs : List Char}
    (h : ∀ c ∈ cs, p c = false) : cs.dropWhile p = cs := by
  cases cs with
  | nil => rfl
  | cons c rest => simp [List.dropWhile_cons, h c (List.mem_cons_self c rest)]

theorem pyStrip_eq_self {cs : List Char}
    (h : ∀ c ∈ cs, c.isWhitespace = false) : pyStrip cs = cs := by
  unfold pyStrip
  rw [dropWhile_eq_self_of_forall h,
      dropWhile_eq_self_of_forall (fun c hc => h c (List.mem_reverse.mp hc)),
      List.reverse_reverse]

theorem pyReplaceFuel_single (p : Char) (rep : List Char) :
    ∀ (n : Nat) (cs : List Char), cs.length ≤ n →
      pyReplaceFuel [p] rep n cs =
        cs.flatMap (fun c => if c = p then rep else [c]) := by
  intro n
  induction n with
  | zero =>
    intro cs hlen
    rw [List.length_eq_zero.mp (Nat.le_zero.mp hlen)]
    rfl
  | succ n ih =>
    intro cs hlen
    cases cs with
    | nil => rfl
    | cons c rest =>
      have ihr := ih rest (Nat.le_of_succ_le_succ hlen)
      by_cases hc : c = p
      · subst hc
        simp [pyReplaceFuel, List.isPrefixOf, ihr]
      · have hne : (p == c) = false := beq_eq_false_iff_ne.mpr (fun h => hc h.symm)
        simp [pyReplaceFuel, List.isPrefixOf, hne, hc, ihr]

theorem pyReplace_single (cs : List Char) (p : Char) (rep : List Char) :
    pyReplace cs [p] rep = cs.flatMap (fun c => if c = p then rep else [c]) :=
  pyReplaceFuel_single p rep cs.length cs (Nat.le_refl _)

theorem flatMap_subst_id {p : Char} {rep : List Char} {cs : List Char}
    (h : ∀ c ∈ cs, c ≠ p) :
    cs.flatMap (fun c => if c = p then rep else [c]) = cs := by
  induction cs with
  | nil => rfl
  | cons c rest ih =>
    simp only [List.flatMap_cons, if_neg (h c (List.mem_cons_self c rest))]
    rw [ih (fun c hc => h c (List.mem_cons_of_mem _ hc))]
    rfl

theorem reSubKeepNumeric_eq_self {cs : List Char}
    (h : ∀ c ∈ cs, (c.isDigit || c = ',' || c = '.' || c = '-') = true) :
    reSubKeepNumeric cs = cs := by
  unfold reSubKeepNumeric
  exact List.filter_eq_self.mpr (fun c hc => by
    have := h c hc
    simpa using this)

theorem pyContains_of_mem {cs : List Char} {p : Char} (h : p ∈ cs) :
    pyContains cs p = true := by
  simp only [pyContains, List.any_eq_true, decide_eq_true_eq]
  exact ⟨p, h, rfl⟩

theorem pyContains_eq_false {cs : List Char} {p : Char}
    (h : ∀ c ∈ cs, c ≠ p) : pyContains cs p = false := by
  simp only [pyContains, List.any_eq_false]
  intro c hc
  simpa using h c hc

theorem splitOnChar_ne_nil (p : Char) (cs : List Char) : splitOnChar p cs ≠ [] := by
  induction cs with
  | nil => simp [splitOnChar]
  | cons c rest ih =>
    simp only [splitOnChar]
    cases h : splitOnChar p rest with
    | nil => by_cases hc : c = p <;> simp [hc]
    | cons g gs => by_cases hc : c = p <;> simp [hc]

theorem splitOnChar_append_free {p : Char} {a : List Char}
    (ha : ∀ c ∈ a, c ≠ p) (cs : List Char) {g : List Char} {gs : List (List Char)}
    (h : splitOnChar p cs = g :: gs) :
    splitOnChar p (a ++ cs) = (a ++ g) :: gs := by
  induction a with
  | nil => simpa using h
  | cons c a' ih =>
    have hrest := ih (fun c hc => ha c (List.mem_cons_of_mem _ hc))
    have hc : c ≠ p := ha c (List.mem_cons_self c a')
    simp only [List.cons_append, splitOnChar, List.append_eq, hrest, if_neg hc]

theorem splitOnChar_free {p : Char} {a : List Char} (ha : ∀ c ∈ a, c ≠ p) :
    splitOnChar p a = [a] := by
  have := @splitOnChar_append_free p a ha [] [] [] rfl
  simpa using this

theorem splitOnChar_pair {p : Char} {a b : List Char}
    (ha : ∀ c ∈ a, c ≠ p) (hb : ∀ c ∈ b, c ≠ p) :
    splitOnChar p (a ++ p :: b) = [a, b] := by
  have hb' : splitOnChar p (p :: b) = [] :: [b] := by
    simp [splitOnChar, splitOnChar_free hb]
  have := splitOnChar_append_free ha (p :: b) hb'
  simpa using this

theorem digitsToNat_go (cs : List Char) :
    ∀ acc : Nat,
      cs.foldl (fun acc c => acc * 10 + (c.toNat - 48)) acc =
        acc * 10 ^ cs.length + digitsToNat cs := by
  induction cs with
  | nil => intro acc; simp [digitsToNat]
  | cons c rest ih =>
    intro acc
    simp only [List.foldl_cons, List.length_cons, digitsToNat]
    rw [ih (acc * 10 + (c.toNat - 48)), ih (0 * 10 + (c.toNat - 48))]
    ring

theorem digitsToNat_append (a b : List Char) :
    digitsToNat (a ++ b) = digitsToNat a * 10 ^ b.length + digitsToNat b := by
  unfold digitsToNat
  rw [List.foldl_append]
  exact digitsToNat_go b _

theorem digit_val_le {c : Char} (h : c.isDigit = true) : c.toNat - 48 ≤ 9 := by
  have := toNat_le_of_isDigit h
  omega

theorem digitsToNat_lt {cs : List Char} (h : ∀ c ∈ cs, c.isDigit = true) :
    digitsToNat cs < 10 ^ cs.length := by
  induction cs with
  | nil => simp [digitsToNat]
  | cons c rest ih =>
    have hc := digit_val_le (h c (List.mem_cons_self c rest))
    have hr := ih (fun c hc => h c (List.mem_cons_of_mem _ hc))
    have : digitsToNat (c :: rest) =
        (c.toNat - 48) * 10 ^ rest.length + digitsToNat rest := by
      have := digitsToNat_append [c] rest
      simpa [digitsToNat] using this
    rw [this]
    have h10 : (c.toNat - 48) * 10 ^ rest.length ≤ 9 * 10 ^ rest.length :=
      Nat.mul_le_mul_right _ hc
    calc (c.toNat - 48) * 10 ^ rest.length + digitsToNat rest
        ≤ 9 * 10 ^ rest.length + digitsToNat rest := by omega
      _ < 9 * 10 ^ rest.length + 10 ^ rest.length := by omega
      _ = 10 ^ (rest.length + 1) := by ring
      _ = 10 ^ (c :: rest).length := by simp

theorem allDigits_iff {cs : List Char} :
    allDigits cs = true ↔ ∀ c ∈ cs, c.isDigit = true := by
  simp [allDigits, List.all_eq_true]

theorem digit_ne_dot {c : Char} (h : c.isDigit = true) : c ≠ '.' :=
  char_ne_of_isDigit h (by decide)

theorem digit_ne_comma {c : Char} (h : c.isDigit = true) : c ≠ ',' :=
  char_ne_of_isDigit h (by decide)

theorem digit_ne_minus {c : Char} (h : c.isDigit = true) : c ≠ '-' :=
  char_ne_of_isDigit h (by decide)

theorem digit_ne_plus {c : Char} (h : c.isDigit = true) : c ≠ '+' :=
  char_ne_of_isDigit h (by decide)

theorem pySign_no_sign {cs : List Char}
    (h : ∀ c ∈ cs.take 1, c ≠ '-' ∧ c ≠ '+') : pySign cs = (1, cs) := by
  cases cs with
  | nil => rfl
  | cons c rest =>
    have hc := h c (by simp)
    simp [pySign, hc.1, hc.2]

theorem pyFloatParseCore_digits {ds : List Char}
    (h : ∀ c ∈ ds, c.isDigit = true) (hne : ds ≠ []) :
    pyFloatParseCore ds = some ((digitsToNat ds : ℚ)) := by
  have hsign : pySign ds = (1, ds) := by
    apply pySign_no_sign
    intro c hc
    have hmem := List.mem_of_mem_take hc
    exact ⟨digit_ne_minus (h c hmem), digit_ne_plus (h c hmem)⟩
  have hsplit : splitOnChar '.' ds = [ds] :=
    splitOnChar_free (fun c hc => digit_ne_dot (h c hc))
  have hall : allDigits ds = true := allDigits_iff.mpr h
  have hval : mkRat (1 * (digitsToNat ds : ℤ)) 1 = ((digitsToNat ds : ℚ)) := by
    rw [one_mul, Rat.mkRat_eq_div]
    push_cast
    simp
  simp [pyFloatParseCore, hsign, hsplit, hall, hne, hval]

theorem pyFloatParseCore_digits_dot {a b : List Char}
    (ha : ∀ c ∈ a, c.isDigit = true) (hb : ∀ c ∈ b, c.isDigit = true)
    (hne : a ≠ [] ∨ b ≠ []) :
    pyFloatParseCore (a ++ '.' :: b) =
      some ((digitsToNat a : ℚ) + (digitsToNat b : ℚ) / 10 ^ b.length) := by
  have hsign : pySign (a ++ '.' :: b) = (1, a ++ '.' :: b) := by
    apply pySign_no_sign
    intro c hc
    have hmem := List.mem_of_mem_take hc
    rcases List.mem_append.mp hmem with hma | hmb
    · exact ⟨digit_ne_minus (ha c hma), digit_ne_plus (ha c hma)⟩
    · rcases List.mem_cons.mp hmb with rfl | hmb'
      · exact ⟨by decide, by decide⟩
      · exact ⟨digit_ne_minus (hb c hmb'), digit_ne_plus (hb c hmb')⟩
  have hsplit : splitOnChar '.' (a ++ '.' :: b) = [a, b] :=
    splitOnChar_pair (fun c hc => digit_ne_dot (ha c hc))
      (fun c hc => digit_ne_dot (hb c hc))
  have halla : allDigits a = true := allDigits_iff.mpr ha
  have hallb : allDigits b = true := allDigits_iff.mpr hb
  have hval : mkRat
      ((digitsToNat a : ℤ) * 10 ^ b.length + (digitsToNat b : ℤ))
      (10 ^ b.length) =
      (digitsToNat a : ℚ) + (digitsToNat b : ℚ) / 10 ^ b.length := by
    have h10 : ((10 : ℚ)) ^ b.length ≠ 0 := by positivity
    rw [Rat.mkRat_eq_div]
    push_cast
    field_simp
  rcases hne with hne | hne <;>
    simp [pyFloatParseCore, hsign, hsplit, halla, hallb, hne, hval]

theorem twoPow1024_cast : ((twoPow1024 : ℤ) : ℚ) = (2 : ℚ) ^ 1024 := by
  unfold twoPow1024
  push_cast
  ring

theorem floatClassify_le_iff {q : ℚ} :
    twoPow1024 * (q.den : ℤ) ≤ q.num ↔ (2 : ℚ) ^ 1024 ≤ q := by
  rw [← twoPow1024_cast, Rat.le_def]
  simp [Rat.num_intCast, Rat.den_intCast]

theorem floatClassify_neg_iff {q : ℚ} :
    q.num ≤ -(twoPow1024 * (q.den : ℤ)) ↔ q ≤ -((2 : ℚ) ^ 1024) := by
  have hneg : -((2 : ℚ) ^ 1024) = (((-twoPow1024 : ℤ)) : ℚ) := by
    rw [← twoPow1024_cast]
    push_cast
    ring
  rw [hneg, Rat.le_def]
  simp [Rat.num_intCast, Rat.den_intCast, neg_mul]

theorem floatClassify_finite {q : ℚ} (h1 : q < 2 ^ 1024) (h2 : -(2 ^ 1024) < q) :
    floatClassify q = .finite q := by
  unfold floatClassify
  rw [if_neg (by rw [floatClassify_le_iff]; exact not_le.mpr h1),
      if_neg (by rw [floatClassify_neg_iff]; exact not_le.mpr h2)]

theorem floatClassify_is_inf {q : ℚ} (h : (2 : ℚ) ^ 1024 ≤ q) :
    floatClassify q = .inf := by
  unfold floatClassify
  rw [if_pos (floatClassify_le_iff.mpr h)]

theorem ratTrunc_natCast (n : ℕ) : ratTrunc (n : ℚ) = n := by
  simp [ratTrunc, Rat.num_natCast, Rat.den_natCast]

/-! ### Pipeline lemmas: the cleaners on pure digit/separator tokens -/

theorem pureTok_not_ws {x : Char} (h : pureTok x) : x.isWhitespace = false := by
  rcases h with h | rfl | rfl
  · exact isWhitespace_eq_false_of_isDigit h
  · decide
  · decide

theorem pureTok_keep {x : Char} (h : pureTok x) :
    (x.isDigit || x = ',' || x = '.' || x = '-') = true := by
  rcases h with h | rfl | rfl
  · simp [h]
  · decide
  · decide

theorem pureTok_ne_dash {x : Char} (h : pureTok x) : x ≠ '-' := by
  rcases h with h | rfl | rfl
  · exact digit_ne_minus h
  · decide
  · decide

theorem cons_append_ne_nil (a : List Char) (c : Char) (t : List Char) :
    a ++ c :: t ≠ [] := by
  cases a <;> simp

theorem clean_price_body_pure {cs : List Char}
    (hpure : ∀ x ∈ cs, pureTok x) (hne : cs ≠ []) :
    clean_price_body (String.mk cs) =
      (pyFloatOf
        (if pyContains cs ',' && pyContains cs '.' then
          pyReplace (pyReplace cs ['.'] []) [','] ['.']
        else if pyContains cs ',' then pyReplace cs [','] ['.']
        else cs)).map some := by
  have hstrip : pyStrip cs = cs :=
    pyStrip_eq_self (fun c hc => pureTok_not_ws (hpure c hc))
  have hdash : ¬(cs = ['-']) := by
    intro h
    exact pureTok_ne_dash (hpure '-' (h ▸ List.mem_singleton_self '-')) rfl
  have hresub : reSubKeepNumeric cs = cs :=
    reSubKeepNumeric_eq_self (fun c hc => pureTok_keep (hpure c hc))
  have hempty : cs.isEmpty = false := by
    cases cs with
    | nil => exact absurd rfl hne
    | cons c t => rfl
  simp only [clean_price_body, hstrip, hresub, hempty, hdash, decide_False,
    Bool.false_or, if_false]
  cases h : pyFloatOf
      (if pyContains cs ',' && pyContains cs '.' then
        pyReplace (pyReplace cs ['.'] []) [','] ['.']
      else if pyContains cs ',' then pyReplace cs [','] ['.']
      else cs) <;>
    simp [h, Except.map]

theorem pyReplace_single_occ {p : Char} {a b : List Char} (rep : List Char)
    (ha : ∀ x ∈ a, x ≠ p) (hb : ∀ x ∈ b, x ≠ p) :
    pyReplace (a ++ p :: b) [p] rep = a ++ rep ++ b := by
  rw [pyReplace_single]
  simp [List.flatMap_append, List.flatMap_cons, flatMap_subst_id ha,
    flatMap_subst_id hb]

theorem digitsToNat_cast_lt_q {a : List Char} (h : digitsToNat a < 2 ^ 1023) :
    (digitsToNat a : ℚ) < 2 ^ 1023 := by
  exact_mod_cast h

theorem frac_nonneg_lt_one {b : List Char} (hb : ∀ x ∈ b, x.isDigit = true) :
    0 ≤ (digitsToNat b : ℚ) / 10 ^ b.length ∧
      (digitsToNat b : ℚ) / 10 ^ b.length < 1 := by
  constructor
  · positivity
  · rw [div_lt_one (by positivity)]
    exact_mod_cast digitsToNat_lt hb

theorem one_le_two_pow_q : (1 : ℚ) ≤ 2 ^ 1023 :=
  one_le_pow₀ one_le_two

theorem two_pow_succ_q : (2 : ℚ) ^ 1024 = 2 ^ 1023 * 2 := by
  rw [← pow_succ]

theorem floatClassify_decimal {a b : List Char}
    (hb : ∀ x ∈ b, x.isDigit = true) (hbound : digitsToNat a < 2 ^ 1023) :
    floatClassify ((digitsToNat a : ℚ) + (digitsToNat b : ℚ) / 10 ^ b.length) =
      .finite ((digitsToNat a : ℚ) + (digitsToNat b : ℚ) / 10 ^ b.length) := by
  have hA := digitsToNat_cast_lt_q hbound
  have hA0 : (0 : ℚ) ≤ (digitsToNat a : ℚ) := Nat.cast_nonneg _
  obtain ⟨hF0, hF1⟩ := frac_nonneg_lt_one hb
  have h1 := one_le_two_pow_q
  have h2 := two_pow_succ_q
  apply floatClassify_finite
  · linarith
  · linarith

theorem clean_price_comma_dot {a b c : List Char}
    (ha : ∀ x ∈ a, x.isDigit = true) (hb : ∀ x ∈ b, x.isDigit = true)
    (hc : ∀ x ∈ c, x.isDigit = true)
    (hne : b ++ c ≠ ([] : List Char))
    (hbound : digitsToNat a < 2 ^ 1023) :
    clean_price (String.mk (a ++ ',' :: (b ++ '.' :: c))) =
      .ok (some (.finite ((digitsToNat a : ℚ) +
        (digitsToNat (b ++ c) : ℚ) / 10 ^ (b ++ c).length))) := by
  have hpure : ∀ x ∈ a ++ ',' :: (b ++ '.' :: c), pureTok x := by
    intro x hx
    rcases List.mem_append.mp hx with hxa | hx'
    · exact Or.inl (ha x hxa)
    · rcases List.mem_cons.mp hx' with rfl | hx''
      · exact Or.inr (Or.inl rfl)
      · rcases List.mem_append.mp hx'' with hxb | hx3
        · exact Or.inl (hb x hxb)
        · rcases List.mem_cons.mp hx3 with rfl | hxc
          · exact Or.inr (Or.inr rfl)
          · exact Or.inl (hc x hxc)
  have hcs_ne : a ++ ',' :: (b ++ '.' :: c) ≠ [] := cons_append_ne_nil _ _ _
  have hcomma : pyContains (a ++ ',' :: (b ++ '.' :: c)) ',' = true :=
    pyContains_of_mem (List.mem_append_right _ (List.mem_cons_self _ _))
  have hdot : pyContains (a ++ ',' :: (b ++ '.' :: c)) '.' = true :=
    pyContains_of_mem (List.mem_append_right _ (List.mem_cons_of_mem _
      (List.mem_append_right _ (List.mem_cons_self _ _))))
  have hshape : a ++ ',' :: (b ++ '.' :: c) = (a ++ ',' :: b) ++ '.' :: c := by
    simp
  have hr1 : pyReplace (a ++ ',' :: (b ++ '.' :: c)) ['.'] [] =
      a ++ ',' :: (b ++ c) := by
    rw [hshape, pyReplace_single_occ []
      (by
        intro x hx
        rcases List.mem_append.mp hx with hxa | hx'
        · exact digit_ne_dot (ha x hxa)
        · rcases List.mem_cons.mp hx' with rfl | hxb
          · decide
          · exact digit_ne_dot (hb x hxb))
      (fun x hx => digit_ne_dot (hc x hx))]
    simp
  have hr2 : pyReplace (a ++ ',' :: (b ++ c)) [','] ['.'] =
      a ++ '.' :: (b ++ c) := by
    rw [pyReplace_single_occ ['.']
      (fun x hx => digit_ne_comma (ha x hx))
      (by
        intro x hx
        rcases List.mem_append.mp hx with hxb | hxc
        · exact digit_ne_comma (hb x hxb)
        · exact digit_ne_comma (hc x hxc))]
    simp
  have hbc : ∀ x ∈ b ++ c, x.isDigit = true := by
    intro x hx
    rcases List.mem_append.mp hx with hxb | hxc
    · exact hb x hxb
    · exact hc x hxc
  have hfloat : pyFloatOf (a ++ '.' :: (b ++ c)) =
      .ok (.finite ((digitsToNat a : ℚ) +
        (digitsToNat (b ++ c) : ℚ) / 10 ^ (b ++ c).length)) := by
    simp only [pyFloatOf, pyFloatParseCore_digits_dot ha hbc (Or.inr hne)]
    rw [floatClassify_decimal hbc hbound]
  have hbody := clean_price_body_pure hpure hcs_ne
  rw [hcomma, hdot] at hbody
  simp only [Bool.and_self, if_true] at hbody
  rw [hr1, hr2, hfloat] at hbody
  simp only [Except.map] at hbody
  simp [clean_price, hbody]

theorem except_map_some {α : Type} (e : Except PyExc α) :
    (e >>= fun x => pure (some x) : Except PyExc (Option α)) = e.map some := by
  cases e <;> rfl

theorem clean_stock_body_pure {cs : List Char}
    (hpure : ∀ x ∈ cs, pureTok x) (hne : cs ≠ []) :
    clean_stock_body (String.mk cs) =
      (if pyContains cs '.' && pyContains cs ',' then
        (pyIntFloat (pyReplace (pyReplace cs ['.'] []) [','] [])).map some
      else if pyContains cs '.' then
        (if (splitOnChar '.' cs).length = 2 &&
            ((splitOnChar '.' cs).getD 1 []).length = 3 then
          (pyIntFloat (pyReplace cs ['.'] [])).map some
        else
          (pyIntFloat cs).bind fun i => (pyIntFloat (intToChars i)).map some)
      else if pyContains cs ',' then
        (pyIntFloat (pyReplace cs [','] [])).map some
      else (pyIntFloat cs).map some) := by
  have hstrip : pyStrip cs = cs :=
    pyStrip_eq_self (fun c hc => pureTok_not_ws (hpure c hc))
  have hdash : ¬(cs = ['-']) := by
    intro h
    exact pureTok_ne_dash (hpure '-' (h ▸ List.mem_singleton_self '-')) rfl
  have hresub : reSubKeepNumeric cs = cs :=
    reSubKeepNumeric_eq_self (fun c hc => pureTok_keep (hpure c hc))
  have hempty : cs.isEmpty = false := by
    cases cs with
    | nil => exact absurd rfl hne
    | cons c t => rfl
  simp only [clean_stock_body, hstrip, hresub, hempty, hdash, decide_False,
    Bool.false_or, if_false, except_map_some]
  rfl

theorem digitsToNat_cast_lt_pow {ds : List Char} (h : digitsToNat ds < 2 ^ 1023) :
    (digitsToNat ds : ℚ) < 2 ^ 1024 ∧ -((2 : ℚ) ^ 1024) < (digitsToNat ds : ℚ) := by
  have hA := digitsToNat_cast_lt_q h
  have hA0 : (0 : ℚ) ≤ (digitsToNat ds : ℚ) := Nat.cast_nonneg _
  have h1 := one_le_two_pow_q
  have h2 := two_pow_succ_q
  constructor <;> linarith

theorem pyIntFloat_ok {cs : List Char} {f : PyFloat} (h : pyFloatOf cs = .ok f) :
    pyIntFloat cs = pyIntOfFloat f := by
  unfold pyIntFloat
  rw [h]
  rfl

theorem pyIntFloat_digits {ds : List Char}
    (hd : ∀ x ∈ ds, x.isDigit = true) (hne : ds ≠ [])
    (hbound : digitsToNat ds < 2 ^ 1023) :
    pyIntFloat ds = .ok (digitsToNat ds : ℤ) := by
  obtain ⟨hlt, hgt⟩ := digitsToNat_cast_lt_pow hbound
  have hfloat : pyFloatOf ds = .ok (.finite (digitsToNat ds : ℚ)) := by
    simp only [pyFloatOf, pyFloatParseCore_digits hd hne]
    rw [floatClassify_finite hlt hgt]
  rw [pyIntFloat_ok hfloat]
  simp [pyIntOfFloat, ratTrunc_natCast]

theorem clean_price_dot_comma {a b c : List Char}
    (ha : ∀ x ∈ a, x.isDigit = true) (hb : ∀ x ∈ b, x.isDigit = true)
    (hc : ∀ x ∈ c, x.isDigit = true)
    (hne : a ++ b ≠ ([] : List Char) ∨ c ≠ ([] : List Char))
    (hbound : digitsToNat (a ++ b) < 2 ^ 1023) :
    clean_price (String.mk (a ++ '.' :: (b ++ ',' :: c))) =
      .ok (some (.finite ((digitsToNat (a ++ b) : ℚ) +
        (digitsToNat c : ℚ) / 10 ^ c.length))) := by
  have hpure : ∀ x ∈ a ++ '.' :: (b ++ ',' :: c), pureTok x := by
    intro x hx
    rcases List.mem_append.mp hx with hxa | hx'
    · exact Or.inl (ha x hxa)
    · rcases List.mem_cons.mp hx' with rfl | hx''
      · exact Or.inr (Or.inr rfl)
      · rcases List.mem_append.mp hx'' with hxb | hx3
        · exact Or.inl (hb x hxb)
        · rcases List.mem_cons.mp hx3 with rfl | hxc
          · exact Or.inr (Or.inl rfl)
          · exact Or.inl (hc x hxc)
  have hcs_ne : a ++ '.' :: (b ++ ',' :: c) ≠ [] := cons_append_ne_nil _ _ _
  have hdot : pyContains (a ++ '.' :: (b ++ ',' :: c)) '.' = true :=
    pyContains_of_mem (List.mem_append_right _ (List.mem_cons_self _ _))
  have hcomma : pyContains (a ++ '.' :: (b ++ ',' :: c)) ',' = true :=
    pyContains_of_mem (List.mem_append_right _ (List.mem_cons_of_mem _
      (List.mem_append_right _ (List.mem_cons_self _ _))))
  have hab : ∀ x ∈ a ++ b, x.isDigit = true := by
    intro x hx
    rcases List.mem_append.mp hx with hxa | hxb
    · exact ha x hxa
    · exact hb x hxb
  have hr1 : pyReplace (a ++ '.' :: (b ++ ',' :: c)) ['.'] [] =
      (a ++ b) ++ ',' :: c := by
    rw [pyReplace_single_occ []
      (fun x hx => digit_ne_dot (ha x hx))
      (by
        intro x hx
        rcases List.mem_append.mp hx with hxb | hx'
        · exact digit_ne_dot (hb x hxb)
        · rcases List.mem_cons.mp hx' with rfl | hxc
          · decide
          · exact digit_ne_dot (hc x hxc))]
    simp
  have hr2 : pyReplace ((a ++ b) ++ ',' :: c) [','] ['.'] =
      (a ++ b) ++ '.' :: c := by
    rw [pyReplace_single_occ ['.']
      (fun x hx => digit_ne_comma (hab x hx))
      (fun x hx => digit_ne_comma (hc x hx))]
    simp
  have hfloat : pyFloatOf ((a ++ b) ++ '.' :: c) =
      .ok (.finite ((digitsToNat (a ++ b) : ℚ) +
        (digitsToNat c : ℚ) / 10 ^ c.length)) := by
    simp only [pyFloatOf, pyFloatParseCore_digits_dot hab hc hne]
    rw [floatClassify_decimal hc hbound]
  have hbody := clean_price_body_pure hpure hcs_ne
  rw [hcomma, hdot] at hbody
  simp only [Bool.and_self, if_true] at hbody
  rw [hr1, hr2, hfloat] at hbody
  simp only [Except.map] at hbody
  simp [clean_price, hbody]

theorem clean_price_comma_only {a b : List Char}
    (ha : ∀ x ∈ a, x.isDigit = true) (hb : ∀ x ∈ b, x.isDigit = true)
    (hne : a ≠ ([] : List Char) ∨ b ≠ ([] : List Char))
    (hbound : digitsToNat a < 2 ^ 1023) :
    clean_price (String.mk (a ++ ',' :: b)) =
      .ok (some (.finite ((digitsToNat a : ℚ) +
        (digitsToNat b : ℚ) / 10 ^ b.length))) := by
  have hpure : ∀ x ∈ a ++ ',' :: b, pureTok x := by
    intro x hx
    rcases List.mem_append.mp hx with hxa | hx'
    · exact Or.inl (ha x hxa)
    · rcases List.mem_cons.mp hx' with rfl | hxb
      · exact Or.inr (Or.inl rfl)
      · exact Or.inl (hb x hxb)
  have hcs_ne : a ++ ',' :: b ≠ [] := cons_append_ne_nil _ _ _
  have hcomma : pyContains (a ++ ',' :: b) ',' = true :=
    pyContains_of_mem (List.mem_append_right _ (List.mem_cons_self _ _))
  have hdotf : pyContains (a ++ ',' :: b) '.' = false := by
    apply pyContains_eq_false
    intro x hx
    rcases List.mem_append.mp hx with hxa | hx'
    · exact digit_ne_dot (ha x hxa)
    · rcases List.mem_cons.mp hx' with rfl | hxb
      · decide
      · exact digit_ne_dot (hb x hxb)
  have hr : pyReplace (a ++ ',' :: b) [','] ['.'] = a ++ '.' :: b := by
    rw [pyReplace_single_occ ['.']
      (fun x hx => digit_ne_comma (ha x hx))
      (fun x hx => digit_ne_comma (hb x hx))]
    simp
  have hfloat : pyFloatOf (a ++ '.' :: b) =
      .ok (.finite ((digitsToNat a : ℚ) +
        (digitsToNat b : ℚ) / 10 ^ b.length)) := by
    simp only [pyFloatOf, pyFloatParseCore_digits_dot ha hb hne]
    rw [floatClassify_decimal hb hbound]
  have hbody := clean_price_body_pure hpure hcs_ne
  rw [hcomma, hdotf] at hbody
  simp only [Bool.and_false, Bool.false_eq_true, if_false, if_true] at hbody
  rw [hr, hfloat] at hbody
  simp only [Except.map] at hbody
  simp [clean_price, hbody]

theorem clean_stock_comma_only {a b : List Char}
    (ha : ∀ x ∈ a, x.isDigit = true) (hb : ∀ x ∈ b, x.isDigit = true)
    (hne : a ++ b ≠ ([] : List Char))
    (hbound : digitsToNat (a ++ b) < 2 ^ 1023) :
    clean_stock (String.mk (a ++ ',' :: b)) =
      .ok (some ((digitsToNat (a ++ b) : ℤ))) := by
  have hpure : ∀ x ∈ a ++ ',' :: b, pureTok x := by
    intro x hx
    rcases List.mem_append.mp hx with hxa | hx'
    · exact Or.inl (ha x hxa)
    · rcases List.mem_cons.mp hx' with rfl | hxb
      · exact Or.inr (Or.inl rfl)
      · exact Or.inl (hb x hxb)
  have hcs_ne : a ++ ',' :: b ≠ [] := cons_append_ne_nil _ _ _
  have hcomma : pyContains (a ++ ',' :: b) ',' = true :=
    pyContains_of_mem (List.mem_append_right _ (List.mem_cons_self _ _))
  have hdotf : pyContains (a ++ ',' :: b) '.' = false := by
    apply pyContains_eq_false
    intro x hx
    rcases List.mem_append.mp hx with hxa | hx'
    · exact digit_ne_dot (ha x hxa)
    · rcases List.mem_cons.mp hx' with rfl | hxb
      · decide
      · exact digit_ne_dot (hb x hxb)
  have hab : ∀ x ∈ a ++ b, x.isDigit = true := by
    intro x hx
    rcases List.mem_append.mp hx with hxa | hxb
    · exact ha x hxa
    · exact hb x hxb
  have hr : pyReplace (a ++ ',' :: b) [','] [] = a ++ b := by
    rw [pyReplace_single_occ []
      (fun x hx => digit_ne_comma (ha x hx))
      (fun x hx => digit_ne_comma (hb x hx))]
    simp
  have hbody := clean_stock_body_pure hpure hcs_ne
  rw [hcomma, hdotf] at hbody
  simp only [Bool.false_and, Bool.false_eq_true, if_false, if_true] at hbody
  rw [hr, pyIntFloat_digits hab hne hbound] at hbody
  simp only [Except.map] at hbody
  simp [clean_stock, hbody]

theorem clean_stock_dot_comma {a b c : List Char}
    (ha : ∀ x ∈ a, x.isDigit = true) (hb : ∀ x ∈ b, x.isDigit = true)
    (hc : ∀ x ∈ c, x.isDigit = true)
    (hne : a ++ b ++ c ≠ ([] : List Char))
    (hbound : digitsToNat (a ++ b ++ c) < 2 ^ 1023) :
    clean_stock (String.mk (a ++ '.' :: (b ++ ',' :: c))) =
      .ok (some ((digitsToNat (a ++ b ++ c) : ℤ))) := by
  have hpure : ∀ x ∈ a ++ '.' :: (b ++ ',' :: c), pureTok x := by
    intro x hx
    rcases List.mem_append.mp hx with hxa | hx'
    · exact Or.inl (ha x hxa)
    · rcases List.mem_cons.mp hx' with rfl | hx''
      · exact Or.inr (Or.inr rfl)
      · rcases List.mem_append.mp hx'' with hxb | hx3
        · exact Or.inl (hb x hxb)
        · rcases List.mem_cons.mp hx3 with rfl | hxc
          · exact Or.inr (Or.inl rfl)
          · exact Or.inl (hc x hxc)
  have hcs_ne : a ++ '.' :: (b ++ ',' :: c) ≠ [] := cons_append_ne_nil _ _ _
  have hdot : pyContains (a ++ '.' :: (b ++ ',' :: c)) '.' = true :=
    pyContains_of_mem (List.mem_append_right _ (List.mem_cons_self _ _))
  have hcomma : pyContains (a ++ '.' :: (b ++ ',' :: c)) ',' = true :=
    pyContains_of_mem (List.mem_append_right _ (List.mem_cons_of_mem _
      (List.mem_append_right _ (List.mem_cons_self _ _))))
  have hab : ∀ x ∈ a ++ b, x.isDigit = true := by
    intro x hx
    rcases List.mem_append.mp hx with hxa | hxb
    · exact ha x hxa
    · exact hb x hxb
  have habc : ∀ x ∈ a ++ b ++ c, x.isDigit = true := by
    intro x hx
    rcases List.mem_append.mp hx with hxab | hxc
    · exact hab x hxab
    · exact hc x hxc
  have hr1 : pyReplace (a ++ '.' :: (b ++ ',' :: c)) ['.'] [] =
      (a ++ b) ++ ',' :: c := by
    rw [pyReplace_single_occ []
      (fun x hx => digit_ne_dot (ha x hx))
      (by
        intro x hx
        rcases List.mem_append.mp hx with hxb | hx'
        · exact digit_ne_dot (hb x hxb)
        · rcases List.mem_cons.mp hx' with rfl | hxc
          · decide
          · exact digit_ne_dot (hc x hxc))]
    simp
  have hr2 : pyReplace ((a ++ b) ++ ',' :: c) [','] [] = a ++ b ++ c := by
    rw [pyReplace_single_occ []
      (fun x hx => digit_ne_comma (hab x hx))
      (fun x hx => digit_ne_comma (hc x hx))]
    simp
  have hbody := clean_stock_body_pure hpure hcs_ne
  rw [hcomma, hdot] at hbody
  simp only [Bool.and_self, if_true] at hbody
  rw [hr1, hr2, pyIntFloat_digits habc hne hbound] at hbody
  simp only [Except.map] at hbody
  simp [clean_stock, hbody]

/-! ### Collector lemmas -/

theorem dedupAux_filter (d : String) :
    ∀ (l : List Record) (seen : List String),
      (dedupAux l seen).filter (fun r => r.date == d) =
        if d ∈ seen then [] else (l.filter (fun r => r.date == d)).take 1 := by
  intro l
  induction l with
  | nil => intro seen; by_cases h : d ∈ seen <;> simp [dedupAux, h]
  | cons r rest ih =>
    intro seen
    by_cases hseen : r.date ∈ seen
    · rw [dedupAux, if_pos hseen, ih seen]
      by_cases hd : d ∈ seen
      · rw [if_pos hd, if_pos hd]
      · rw [if_neg hd, if_neg hd]
        have hrd : (r.date == d) = false := by
          apply beq_eq_false_iff_ne.mpr
          intro he
          exact hd (he ▸ hseen)
        simp [List.filter_cons, hrd]
    · rw [dedupAux, if_neg hseen]
      by_cases hrd : r.date = d
      · subst hrd
        rw [List.filter_cons_of_pos (by simp)]
        rw [List.filter_cons_of_pos (by simp)]
        rw [ih (r.date :: seen), if_pos (List.mem_cons_self _ _)]
        by_cases hd : r.date ∈ seen
        · exact absurd hd hseen
        · rw [if_neg hseen]
          simp
      · have hbd : (r.date == d) = false := beq_eq_false_iff_ne.mpr hrd
        rw [List.filter_cons_of_neg (by simp [hbd]),
            List.filter_cons_of_neg (by simp [hbd]), ih (r.date :: seen)]
        by_cases hd : d ∈ seen
        · rw [if_pos (List.mem_cons_of_mem _ hd), if_pos hd]
        · have hd' : d ∉ r.date :: seen := by
            intro hmem
            rcases List.mem_cons.mp hmem with he | he
            · exact hrd he.symm
            · exact hd he
          rw [if_neg hd', if_neg hd]

theorem scrape_all_data_filter_eq (pages : List Page) (d : String) :
    (scrape_all_data pages).filter (fun r => r.date == d) =
      ((pages.map scrape_data_page).flatten.filter (fun r => r.date == d)).take 1 := by
  unfold scrape_all_data dedupDates
  rw [dedupAux_filter]
  simp

theorem processRows_cons {c0 c1 c2 c3 : String} {extra : List String}
    {rows : List (List String)} {p1 p2 : Option PyFloat} {st : Option ℤ}
    {tl : List Record}
    (h1 : clean_price c1 = .ok p1) (h2 : clean_price c2 = .ok p2)
    (h3 : clean_stock c3 = .ok st) (hrest : processRows rows = .ok tl) :
    processRows ((c0 :: c1 :: c2 :: c3 :: extra) :: rows) =
      .ok (match parse_date c0 with
        | some d =>
          { date := d, lme_copper_cash_settlement := p1,
            lme_copper_3_month := p2, lme_copper_stock := st } :: tl
        | none => tl) := by
  have hlen : (c0 :: c1 :: c2 :: c3 :: extra).length ≥ 4 := by
    simp only [List.length_cons]
    omega
  rw [processRows, if_pos hlen]
  simp only [List.getD_cons_zero, List.getD_cons_succ, h1, h2, h3, hrest]
  cases parse_date c0 <;> rfl

theorem scrape_data_page_of_error (e : String) :
    scrape_data_page (Except.error e) = [] := rfl

theorem scrape_all_data_drop_failed_page (pre post : List Page) (e : String) :
    scrape_all_data (pre ++ Except.error e :: post) =
      scrape_all_data (pre ++ post) := by
  unfold scrape_all_data
  congr 1
  simp [List.map_append, List.flatten_append, scrape_data_page]

theorem save_to_csv_some {l out : List Record} (h : save_to_csv l = some out) :
    List.Sorted recLe out ∧ out.Perm l := by
  unfold save_to_csv at h
  by_cases hl : l.isEmpty
  · rw [if_pos hl] at h
    exact absurd h (by simp)
  · rw [if_neg hl] at h
    obtain rfl : List.insertionSort recLe l = out := Option.some.inj h
    exact ⟨List.sorted_insertionSort recLe l, List.perm_insertionSort recLe l⟩

/-! ### parse_date on canonical ISO strings -/

theorem digitChar_toNat_le {n : Nat} (h : n < 10) : (Nat.digitChar n).toNat ≤ 57 := by
  interval_cases n <;> decide

theorem digitChar_not_ws {n : Nat} (h : n < 10) :
    (Nat.digitChar n).isWhitespace = false := by
  interval_cases n <;> decide

theorem digitChar_ne_dot {n : Nat} (h : n < 10) : Nat.digitChar n ≠ '.' := by
  interval_cases n <;> decide

theorem formatIso_chars {y m d : Nat} :
    ∀ c ∈ formatIso y m d, c.toNat ≤ 57 ∧ c.isWhitespace = false := by
  intro c hc
  unfold formatIso at hc
  have h10 : ∀ x : Nat, x % 10 < 10 := fun x => Nat.mod_lt _ (by decide)
  rcases hc with _ | ⟨_, hc⟩
  · exact ⟨digitChar_toNat_le (h10 _), digitChar_not_ws (h10 _)⟩
  · rcases hc with _ | ⟨_, hc⟩
    · exact ⟨digitChar_toNat_le (h10 _), digitChar_not_ws (h10 _)⟩
    · rcases hc with _ | ⟨_, hc⟩
      · exact ⟨digitChar_toNat_le (h10 _), digitChar_not_ws (h10 _)⟩
      · rcases hc with _ | ⟨_, hc⟩
        · exact ⟨digitChar_toNat_le (h10 _), digitChar_not_ws (h10 _)⟩
        · rcases hc with _ | ⟨_, hc⟩
          · exact ⟨by decide, by decide⟩
          · rcases hc with _ | ⟨_, hc⟩
            · exact ⟨digitChar_toNat_le (h10 _), digitChar_not_ws (h10 _)⟩
            · rcases hc with _ | ⟨_, hc⟩
              · exact ⟨digitChar_toNat_le (h10 _), digitChar_not_ws (h10 _)⟩
              · rcases hc with _ | ⟨_, hc⟩
                · exact ⟨by decide, by decide⟩
                · rcases hc with _ | ⟨_, hc⟩
                  · exact ⟨digitChar_toNat_le (h10 _), digitChar_not_ws (h10 _)⟩
                  · rcases hc with _ | ⟨_, hc⟩
                    · exact ⟨digitChar_toNat_le (h10 _), digitChar_not_ws (h10 _)⟩
                    · exact absurd hc (List.not_mem_nil c)

theorem pyReplaceFuel_no_occ {p : Char} {ps rep : List Char} :
    ∀ (n : Nat) (cs : List Char), (∀ c ∈ cs, c ≠ p) →
      pyReplaceFuel (p :: ps) rep n cs = cs := by
  intro n
  induction n with
  | zero => intro cs _; rfl
  | succ n ih =>
    intro cs h
    cases cs with
    | nil => rfl
    | cons c rest =>
      have hc : c ≠ p := h c (List.mem_cons_self _ _)
      have hpre : ((p :: ps).isPrefixOf (c :: rest)) = false := by
        have : (p == c) = false := beq_eq_false_iff_ne.mpr (fun he => hc he.symm)
        simp [List.isPrefixOf, this]
      simp [pyReplaceFuel, hpre,
        ih rest (fun x hx => h x (List.mem_cons_of_mem _ hx))]

theorem pyReplace_no_occ {p : Char} {ps rep cs : List Char}
    (h : ∀ c ∈ cs, c ≠ p) : pyReplace cs (p :: ps) rep = cs :=
  pyReplaceFuel_no_occ _ cs h

theorem foldl_pyReplace_id :
    ∀ (prs : List (List Char × List Char)) (cs : List Char),
      (∀ pr ∈ prs, ∃ p ps, pr.1 = p :: ps ∧ (∀ c ∈ cs, c ≠ p)) →
      prs.foldl (fun acc ge => pyReplace acc ge.1 ge.2) cs = cs := by
  intro prs
  induction prs with
  | nil => intro cs _; rfl
  | cons pr rest ih =>
    intro cs h
    obtain ⟨p, ps, hpat, hno⟩ := h pr (List.mem_cons_self _ _)
    simp only [List.foldl_cons, hpat, pyReplace_no_occ hno]
    exact ih cs (fun x hx => h x (List.mem_cons_of_mem _ hx))

theorem german_months_heads :
    ∀ pr ∈ german_months,
      pr.1 ≠ [] ∧ 65 ≤ (pr.1.headD ' ').toNat := by
  decide

theorem applyMonthReplacements_bounded {cs : List Char}
    (h : ∀ c ∈ cs, c.toNat ≤ 57) : applyMonthReplacements cs = cs := by
  unfold applyMonthReplacements
  apply foldl_pyReplace_id
  intro pr hpr
  obtain ⟨hne, h65⟩ := german_months_heads pr hpr
  cases hpat : pr.1 with
  | nil => exact absurd hpat hne
  | cons p ps =>
    rw [hpat] at h65
    simp only [List.headD_cons] at h65
    refine ⟨p, ps, rfl, ?_⟩
    intro c hc heq
    have h1 := h c hc
    rw [heq] at h1
    omega

theorem parseDayDot_digits3 {c1 c2 c3 : Char} {rest : List Char}
    (h2 : c2 ≠ '.') (h3 : c3 ≠ '.') :
    parseDayDot (c1 :: c2 :: c3 :: rest) = none := by
  simp [parseDayDot, h2, h3]

theorem strptimeDMY_of_day_none {names : List (List Char × Nat)} {cs : List Char}
    (h : parseDayDot cs = none) : strptimeDMY names cs = none := by
  simp [strptimeDMY, h]

theorem parse_date_iso_is_none (y m d : Nat) :
    parse_date (String.mk (formatIso y m d)) = none := by
  have hchars : ∀ c ∈ formatIso y m d, c.toNat ≤ 57 ∧ c.isWhitespace = false :=
    formatIso_chars
  have hstrip : pyStrip (formatIso y m d) = formatIso y m d :=
    pyStrip_eq_self (fun c hc => (hchars c hc).2)
  have hrep : applyMonthReplacements (formatIso y m d) = formatIso y m d :=
    applyMonthReplacements_bounded (fun c hc => (hchars c hc).1)
  have hday : parseDayDot (formatIso y m d) = none := by
    unfold formatIso
    exact parseDayDot_digits3
      (digitChar_ne_dot (Nat.mod_lt _ (by decide)))
      (digitChar_ne_dot (Nat.mod_lt _ (by decide)))
  simp [parse_date, hstrip, hrep, strptimeDMY_of_day_none hday]

theorem digitsToNat_le_append (a b : List Char) :
    digitsToNat a ≤ digitsToNat (a ++ b) := by
  rw [digitsToNat_append]
  have hpos : 0 < 10 ^ b.length := Nat.pos_pow_of_pos _ (by decide)
  calc digitsToNat a ≤ digitsToNat a * 10 ^ b.length :=
        Nat.le_mul_of_pos_right _ hpos
    _ ≤ digitsToNat a * 10 ^ b.length + digitsToNat b := Nat.le_add_right _ _

/-! ### Claims -/

set_option maxRecDepth 400000 in
/-- C1, counterexample: the claim says that with both separators present the
rightmost one is the decimal marker, so that `clean_price "9,637.50"`
returns `9637.50`.  In fact `clean_price` always deletes the dots and turns
the comma into the decimal point, so `"9,637.50"` becomes `"9.63750"` and
the result is `9.6375 = 771/80`, not `9637.50 = 19275/2`. -/
theorem clean_price_not_rightmost_decimal :
    clean_price "9,637.50" = Except.ok (some (.finite (mkRat 771 80))) ∧
    clean_price "9,637.50" ≠ Except.ok (some (.finite (mkRat 19275 2))) ∧
    (9.6375 : ℚ) = mkRat 771 80 ∧ (9637.50 : ℚ) = mkRat 19275 2 :=
  ⟨by decide, by decide, by norm_num [Rat.mkRat_eq_div],
    by norm_num [Rat.mkRat_eq_div]⟩

/-- C1, amended: for every price token made of a digit run, one comma and
one dot (in either order), `clean_price` strips the dots as thousands
separators and treats the comma as the decimal marker, regardless of which
separator is rightmost: `a,b.c` yields `a.(bc)` (so `"1.234,56"` gives
`1234.56` but `"9,637.50"` gives `9.6375`), and `a.b,c` yields `(ab).c`. -/
theorem clean_price_comma_always_decimal {a b c : List Char}
    (ha : ∀ x ∈ a, x.isDigit = true) (hb : ∀ x ∈ b, x.isDigit = true)
    (hc : ∀ x ∈ c, x.isDigit = true)
    (hnebc : b ++ c ≠ ([] : List Char)) (hnec : c ≠ ([] : List Char))
    (hbound : digitsToNat (a ++ b) < 2 ^ 1023) :
    clean_price (String.mk (a ++ ',' :: (b ++ '.' :: c))) =
      Except.ok (some (.finite ((digitsToNat a : ℚ) +
        (digitsToNat (b ++ c) : ℚ) / 10 ^ (b ++ c).length))) ∧
    clean_price (String.mk (a ++ '.' :: (b ++ ',' :: c))) =
      Except.ok (some (.finite ((digitsToNat (a ++ b) : ℚ) +
        (digitsToNat c : ℚ) / 10 ^ c.length))) :=
  ⟨clean_price_comma_dot ha hb hc hnebc
      (Nat.lt_of_le_of_lt (digitsToNat_le_append a b) hbound),
    clean_price_dot_comma ha hb hc (Or.inr hnec) hbound⟩

set_option maxRecDepth 400000 in
/-- C1, witness: the amended claim at the digits of the spec's two examples:
the US-style token `"9,637.50"` evaluates to `9.6375` and the European-style
token `"9.637,50"` evaluates to `9637.50`. -/
theorem clean_price_comma_always_decimal_witness :
    clean_price "9,637.50" =
      Except.ok (some (.finite ((digitsToNat ['9'] : ℚ) +
        (digitsToNat (['6', '3', '7'] ++ ['5', '0']) : ℚ) /
          10 ^ ((['6', '3', '7'] : List Char) ++ ['5', '0']).length))) ∧
    clean_price "9.637,50" =
      Except.ok (some (.finite ((digitsToNat (['9'] ++ ['6', '3', '7']) : ℚ) +
        (digitsToNat ['5', '0'] : ℚ) / 10 ^ (['5', '0'] : List Char).length))) :=
  clean_price_comma_always_decimal (a := ['9']) (b := ['6', '3', '7'])
    (c := ['5', '0']) (by decide) (by decide) (by decide) (by decide)
    (by decide) (by decide)

set_option maxRecDepth 400000 in
/-- C2: the month-replacement loop of `parse_date` corrupts every full
month name: `"Januar"` is first replaced by `"January"`, after which the
`"Jan"` entry rewrites it to `"Januaryuary"`, which `strptime` rejects — so
`parse_date` returns `None` on `"13. Januar 2025"` and `"13. January 2025"`,
the very formats its own comment claims to handle; only abbreviated month
tokens such as `"13. Jan 2025"` survive. -/
theorem parse_date_full_month_names_fail :
    parse_date "13. Januar 2025" = none ∧
    parse_date "13. January 2025" = none ∧
    parse_date "13. Jan 2025" = some "2025-01-13" :=
  ⟨by decide, by decide, by decide⟩

/-- C3: on a token with a comma and no dot, the two normalizers apply
distinct policies: `clean_price` turns the comma into a decimal point
(value `a.b`), while `clean_stock` strips it as a thousands separator
(value `ab`); in particular `clean_stock "108,725" = 108725`. -/
theorem comma_resolution_by_field_type {a b : List Char}
    (ha : ∀ x ∈ a, x.isDigit = true) (hb : ∀ x ∈ b, x.isDigit = true)
    (hnea : a ≠ ([] : List Char))
    (hbound : digitsToNat (a ++ b) < 2 ^ 1023) :
    clean_price (String.mk (a ++ ',' :: b)) =
      Except.ok (some (.finite ((digitsToNat a : ℚ) +
        (digitsToNat b : ℚ) / 10 ^ b.length))) ∧
    clean_stock (String.mk (a ++ ',' :: b)) =
      Except.ok (some ((digitsToNat (a ++ b) : ℤ))) :=
  ⟨clean_price_comma_only ha hb (Or.inl hnea)
      (Nat.lt_of_le_of_lt (digitsToNat_le_append a b) hbound),
    clean_stock_comma_only ha hb
      (fun h => hnea (List.append_eq_nil.mp h).1) hbound⟩

set_option maxRecDepth 400000 in
/-- C3, witness: on `"108,725"` the price normalizer reads `108.725` while
the stock normalizer reads the integer `108725`. -/
theorem comma_resolution_by_field_type_witness :
    clean_price "108,725" =
      Except.ok (some (.finite ((digitsToNat ['1', '0', '8'] : ℚ) +
        (digitsToNat ['7', '2', '5'] : ℚ) /
          10 ^ (['7', '2', '5'] : List Char).length))) ∧
    clean_stock "108,725" =
      Except.ok (some ((digitsToNat (['1', '0', '8'] ++ ['7', '2', '5']) : ℤ))) :=
  comma_resolution_by_field_type (a := ['1', '0', '8']) (b := ['7', '2', '5'])
    (by decide) (by decide) (by decide) (by decide)

/-- C4: for every page sequence absorbed in crawl order, the deduplication
in `scrape_all_data` keeps, for each date value, exactly the first record
encountered in processing order (the filter of the result by any date `d`
is the first element, if any, of the filter of the concatenated page
records), so the final collection has at most one record per date. -/
theorem dedup_keeps_first_record_per_date (pages : List Page) (d : String) :
    (scrape_all_data pages).filter (fun r => r.date == d) =
      ((pages.map scrape_data_page).flatten.filter (fun r => r.date == d)).take 1 ∧
    ((scrape_all_data pages).filter (fun r => r.date == d)).length ≤ 1 := by
  refine ⟨scrape_all_data_filter_eq pages d, ?_⟩
  rw [scrape_all_data_filter_eq pages d]
  exact List.length_take_le 1 _

/-- C5: for every non-empty record list, whatever the accumulation order,
the collection exported by `save_to_csv` is sorted in non-decreasing order
by date and is a permutation of the input. -/
theorem save_to_csv_sorted_ascending (l out : List Record)
    (h : save_to_csv l = some out) :
    List.Sorted recLe out ∧ out.Perm l :=
  save_to_csv_some h

/-- C5, witness: the exported collection of a one-record list. -/
theorem save_to_csv_sorted_ascending_witness :
    List.Sorted recLe [(⟨"2025-01-13", none, none, none⟩ : Record)] ∧
    List.Perm [(⟨"2025-01-13", none, none, none⟩ : Record)]
      [(⟨"2025-01-13", none, none, none⟩ : Record)] :=
  save_to_csv_sorted_ascending
    [(⟨"2025-01-13", none, none, none⟩ : Record)]
    [(⟨"2025-01-13", none, none, none⟩ : Record)] (by rfl)

/-- C6: a row with at least four cells is discarded exactly when
`parse_date` returns absent on its first cell: if the date is absent the
row contributes nothing, and if it parses the record is kept with whatever
the numeric cleaners produced (possibly absent), so numeric parse failures
never discard a row; the empty string and the dash placeholder both
normalize to absent for the numeric cleaners, giving the boundary row its
populated date/cash price and absent three-month price and stock. -/
theorem row_discarded_iff_date_absent
    (c0 c1 c2 c3 : String) (extra : List String) (rows : List (List String))
    (p1 p2 : Option PyFloat) (st : Option ℤ) (tl : List Record)
    (h1 : clean_price c1 = .ok p1) (h2 : clean_price c2 = .ok p2)
    (h3 : clean_stock c3 = .ok st) (hrest : processRows rows = .ok tl) :
    (parse_date c0 = none →
      processRows ((c0 :: c1 :: c2 :: c3 :: extra) :: rows) = .ok tl) ∧
    (∀ d, parse_date c0 = some d →
      processRows ((c0 :: c1 :: c2 :: c3 :: extra) :: rows) =
        .ok (⟨d, p1, p2, st⟩ :: tl)) ∧
    clean_price "" = .ok none ∧ clean_stock "" = .ok none ∧
    clean_price "-" = .ok none ∧ clean_stock "-" = .ok none := by
  have hcons := @processRows_cons c0 c1 c2 c3 extra rows p1 p2 st tl h1 h2 h3 hrest
  refine ⟨fun hn => ?_, fun d hd => ?_, by rfl, by rfl, by rfl, by rfl⟩
  · rw [hn] at hcons
    exact hcons
  · rw [hd] at hcons
    exact hcons

set_option maxRecDepth 400000 in
set_option maxHeartbeats 2000000 in
/-- C6, witness: the boundary row of the spec — a valid date, a parsable
cash price and empty third/fourth cells — yields one record with populated
date and cash price and absent three-month price and stock. -/
theorem row_discarded_iff_date_absent_witness :
    processRows [["13. Jan 2025", "9,600.00", "", ""]] =
      Except.ok [(⟨"2025-01-13", some (.finite (mkRat 48 5)), none, none⟩ : Record)] :=
  (row_discarded_iff_date_absent "13. Jan 2025" "9,600.00" "" "" [] []
    (some (.finite (mkRat 48 5))) none none [] (by decide) (by decide)
    (by decide) (by rfl)).2.1 "2025-01-13" (by decide)

theorem pyFloatOf_not_overflow (cs : List Char) :
    pyFloatOf cs ≠ .error .overflowError := by
  unfold pyFloatOf
  cases pyFloatParseCore cs <;> simp

theorem bind_pure_some_not_overflow {α : Type} {e : Except PyExc α}
    (he : e ≠ .error .overflowError) :
    (e >>= fun x => pure (some x) : Except PyExc (Option α)) ≠
      .error .overflowError := by
  cases e with
  | ok v => simp [except_map_some, Except.map]
  | error err =>
    cases err with
    | valueError => simp [except_map_some, Except.map]
    | attributeError => simp [except_map_some, Except.map]
    | overflowError => exact absurd rfl he

theorem clean_price_body_not_overflow (s : String) :
    clean_price_body s ≠ .error .overflowError := by
  simp only [clean_price_body]
  split
  · simp
  · exact bind_pure_some_not_overflow (pyFloatOf_not_overflow _)

/-- C7, amended: `clean_price` catches every exception its body can raise
(only `ValueError` from `float()`), so it never lets one escape;
`clean_stock` degrades every parse failure to an `ok` result, except that
an `OverflowError` raised by `int()` on an infinite float escapes the
`except (ValueError, AttributeError)` handler.  (`parse_date` sits in a
catch-all `except Exception` and is therefore modelled as a total
function.) -/
theorem normalizers_error_discipline :
    (∀ s : String, ∃ v, clean_price s = Except.ok v) ∧
    (∀ s : String, (∃ v, clean_stock s = Except.ok v) ∨
      clean_stock s = Except.error PyExc.overflowError) := by
  constructor
  · intro s
    cases h : clean_price_body s with
    | ok v => exact ⟨v, by simp [clean_price, h]⟩
    | error e =>
      cases e with
      | valueError => exact ⟨none, by simp [clean_price, h]⟩
      | attributeError => exact ⟨none, by simp [clean_price, h]⟩
      | overflowError => exact absurd h (clean_price_body_not_overflow s)
  · intro s
    cases h : clean_stock_body s with
    | ok v => exact Or.inl ⟨v, by simp [clean_stock, h]⟩
    | error e =>
      cases e with
      | valueError => exact Or.inl ⟨none, by simp [clean_stock, h]⟩
      | attributeError => exact Or.inl ⟨none, by simp [clean_stock, h]⟩
      | overflowError => exact Or.inr (by simp [clean_stock, h])

set_option maxRecDepth 800000 in
/-- C7, counterexample: on a 400-digit stock token, `float()` yields an
infinite value and `int()` raises `OverflowError`, which the
`except (ValueError, AttributeError)` handler of `clean_stock` does not
catch — the exception escapes instead of a logged `None`. -/
theorem clean_stock_uncaught_overflow :
    clean_stock (String.mk (List.replicate 400 '9')) =
      Except.error PyExc.overflowError := by decide

set_option maxRecDepth 400000 in
/-- C8, counterexample: `parse_date` on its own canonical output
`"2025-01-13"` (which is exactly `formatIso 2025 1 13`) yields `None`, not
the same string: the normalizer is not idempotent on canonical input. -/
theorem parse_date_not_idempotent_on_iso :
    parse_date "2025-01-13" = none ∧
    parse_date "2025-01-13" ≠ some "2025-01-13" ∧
    String.mk (formatIso 2025 1 13) = "2025-01-13" :=
  ⟨by decide, by decide, by decide⟩

/-- C8, amended: applied to any canonical ISO `YYYY-MM-DD` string (the
zero-padded output format of `parse_date` itself), `parse_date` returns
absent (`None`): the ISO shape matches neither `"%d. %B %Y"` nor
`"%d. %b %Y"`. -/
theorem parse_date_rejects_iso_output (y m d : Nat) :
    parse_date (String.mk (formatIso y m d)) = none :=
  parse_date_iso_is_none y m d

/-- C9: a page whose fetch or parse raised an exception contributes exactly
zero records, and the overall run is the same as if that page were absent:
the remaining pages are still processed. -/
theorem page_failure_contributes_nothing (pre post : List Page) (e : String) :
    scrape_data_page (Except.error e) = [] ∧
    scrape_all_data (pre ++ Except.error e :: post) =
      scrape_all_data (pre ++ post) :=
  ⟨scrape_data_page_of_error e, scrape_all_data_drop_failed_page pre post e⟩

/-- C10: on a stock token with a dot followed by a comma, `clean_stock`
deletes both separators outright, so every digit (including those after the
comma) is concatenated into the integer — no rounding of a decimal
fraction happens. -/
theorem clean_stock_concatenates_on_both_separators {a b c : List Char}
    (ha : ∀ x ∈ a, x.isDigit = true) (hb : ∀ x ∈ b, x.isDigit = true)
    (hc : ∀ x ∈ c, x.isDigit = true)
    (hne : a ++ b ++ c ≠ ([] : List Char))
    (hbound : digitsToNat (a ++ b ++ c) < 2 ^ 1023) :
    clean_stock (String.mk (a ++ '.' :: (b ++ ',' :: c))) =
      Except.ok (some ((digitsToNat (a ++ b ++ c) : ℤ))) :=
  clean_stock_dot_comma ha hb hc hne hbound

set_option maxRecDepth 400000 in
/-- C10, witness: `clean_stock "1.234,56"` returns `123456` — the digits
concatenated — and not the rounded decimal `1235`. -/
theorem clean_stock_concatenates_witness :
    clean_stock "1.234,56" = Except.ok (some (123456 : ℤ)) ∧
    clean_stock "1.234,56" ≠ Except.ok (some (1235 : ℤ)) := by
  have h := clean_stock_concatenates_on_both_separators (a := ['1'])
    (b := ['2', '3', '4']) (c := ['5', '6']) (by decide) (by decide)
    (by decide) (by decide) (by decide)
  rw [show (digitsToNat ((['1'] ++ ['2', '3', '4']) ++ ['5', '6']) : ℤ) = 123456
    from by decide] at h
  refine ⟨h, fun hc => ?_⟩
  have h2 : (123456 : ℤ) = 1235 := Option.some.inj (Except.ok.inj (h.symm.trans hc))
  exact absurd h2 (by decide)
